import Mathlib

/-!
# Verification of the listdir path model and traversal engine

Shallow embedding of the core of `src/main.c`: the string-normalization
helpers, the `PathQuery` node chain, the `PathList` collection, the
selection sort over C strings, the metadata-resolution policy of
`PathQueryPrintPath`, and the brief/detail rendering decision made by
`GetInfo`/`PathQueryPrintDir`/`PathQueryPrintPath`.

C strings are modelled as Lean `String`s (their NUL-free character
content); machine pointers that may be NULL are modelled as `Option`.
-/

/-- Embeds `RemoveTrailingForwardSlashes` (main.c:191-204), working on the
reversed character list: the C loop walks from the last character down to
index 1 (index 0 is never examined), truncating while it sees a slash. -/
def dropSlashesKeepLast : List Char → List Char
  | [] => []
  | [c] => [c]
  | c :: rest => if c = '/' then dropSlashesKeepLast rest else c :: rest

/-- `RemoveTrailingForwardSlashes` from main.c:191-204: removes trailing
slash characters in place but never clears index 0. -/
def RemoveTrailingForwardSlashes (s : String) : String :=
  String.mk (dropSlashesKeepLast s.data.reverse).reverse

/-- Character-list core of `RemoveLeadingPeriodAndForwardSlashes`
(main.c:175-189): if the buffer starts with `'.'` then `'/'`, shift the
rest down by two; otherwise leave it alone. -/
def dropLeadingPeriodSlash : List Char → List Char
  | '.' :: '/' :: rest => rest
  | l => l

/-- `RemoveLeadingPeriodAndForwardSlashes` from main.c:175-189. -/
def RemoveLeadingPeriodAndForwardSlashes (s : String) : String :=
  String.mk (dropLeadingPeriodSlash s.data)

/-- Does the text end with the character `'/'`? -/
def endsInSlash (s : String) : Bool :=
  s.data.getLast? == some '/'

/-- Does the text begin with two copies of `./`? -/
def startsWithTwoDotSlash (s : String) : Bool :=
  match s.data with
  | '.' :: '/' :: '.' :: '/' :: _ => true
  | _ => false

example : RemoveTrailingForwardSlashes "/hello/world/" = "/hello/world" := by decide
example : RemoveTrailingForwardSlashes "//" = "/" := by decide
example : RemoveTrailingForwardSlashes "/" = "/" := by decide
example : RemoveLeadingPeriodAndForwardSlashes "./hello/world" = "hello/world" := by decide
example : RemoveLeadingPeriodAndForwardSlashes "././a" = "./a" := by decide

/-- The `PathQuery` struct of main.c:59-80: a path segment `p`, a nullable
weak parent pointer, and a level. A NULL parent (a root node) is the
`root` constructor; a non-NULL parent is the `child` constructor, which
stores the level the C code wrote into the struct. -/
inductive PathQuery where
  | root (p : String)
  | child (parent : PathQuery) (p : String) (lvl : Nat)
deriving DecidableEq

/-- The `p` field of a `PathQuery`. -/
def PathQuery.p : PathQuery → String
  | .root s => s
  | .child _ s _ => s

/-- The `lvl` field of a `PathQuery` (`PathQueryCreate` zeroes the struct,
so a root node's level is 0). -/
def PathQuery.lvl : PathQuery → Nat
  | .root _ => 0
  | .child _ _ l => l

/-- Walks the weak parent chain to the root node. -/
def PathQuery.rootOf : PathQuery → PathQuery
  | .root s => .root s
  | .child par _ _ => par.rootOf

/-- `PathQueryCreate` (main.c:206-214): zero the struct (NULL parent,
level 0), copy the path, strip trailing slashes in place. -/
def PathQueryCreate (path : String) : PathQuery :=
  .root (RemoveTrailingForwardSlashes path)

/-- `PathQueryCreateChild` (main.c:222-238): copy the leaf, set the parent
pointer and `lvl = parent.lvl + 1` (an `unsigned char`, hence mod 256),
then strip trailing slashes and a leading `./`. -/
def PathQueryCreateChild (parent : PathQuery) (leaf : String) : PathQuery :=
  .child parent
    (RemoveLeadingPeriodAndForwardSlashes (RemoveTrailingForwardSlashes leaf))
    ((parent.lvl + 1) % 256)

/-- The do/while loop of `PathQueryGetPath` (main.c:246-253): prepend the
current node's segment and a `/` to the accumulated buffer, then move to
the parent, until the parent pointer is NULL. -/
def getPathLoop : PathQuery → String → String
  | .root p, acc => p ++ "/" ++ acc
  | .child par p _, acc => getPathLoop par (p ++ "/" ++ acc)

/-- `PathQueryGetPath` (main.c:240-260): run the prepending loop on an
initially empty buffer, then strip trailing slashes. -/
def PathQueryGetPath (q : PathQuery) : String :=
  RemoveTrailingForwardSlashes (getPathLoop q "")

/-- `PathQueryGetLevel` (main.c:266-269): a NULL argument returns 1,
otherwise the node's `lvl` field. -/
def PathQueryGetLevel : Option PathQuery → Nat
  | none => 1
  | some q => q.lvl

/-- The segments of a node chain, root first. -/
def PathQuery.segments : PathQuery → List String
  | .root p => [p]
  | .child par p _ => par.segments ++ [p]

/-- Joins path segments with `/` separators, root to leaf. -/
def joinSegs : List String → String
  | [] => ""
  | [x] => x
  | x :: y :: xs => x ++ "/" ++ joinSegs (y :: xs)

example :
    PathQueryGetPath
      (PathQueryCreateChild (PathQueryCreateChild (PathQueryCreate "x") "y") "z") =
    "x/y/z" := by decide

/-- The `PathList` struct of main.c:86-94: one array of file paths and one
of directory paths. -/
structure PathList where
  arrayfile : List String
  arraydir : List String
deriving DecidableEq

/-- `PathListGetSize` (main.c:276-279). -/
def PathListGetSize (paths : PathList) : Nat :=
  paths.arrayfile.length + paths.arraydir.length

/-- `PathListGetPathAtIndex` (main.c:281-293): out-of-range indices fail
(`none`); in-range indices select from the file array first, then from the
directory array shifted by the file count. -/
def PathListGetPathAtIndex (paths : PathList) (index : Nat) : Option String :=
  if index ≥ PathListGetSize paths then none
  else if index < paths.arrayfile.length then
    some (paths.arrayfile.getD index "")
  else
    some (paths.arraydir.getD (index - paths.arrayfile.length) "")

example : PathListGetPathAtIndex ⟨["f"], ["d"]⟩ 1 = some "d" := by decide
example : PathListGetPathAtIndex ⟨["f"], ["d"]⟩ 2 = none := by decide

/-- The C library `strcmp` on NUL-free character content, sign-faithful:
the first differing character decides via its code point (UTF-8 byte order
agrees with code-point order), and a string that ends first is smaller
(the C call compares the terminating NUL, which is below every content
byte; only the sign of the result is ever consulted by `ArraySort`). -/
def strcmp : List Char → List Char → Int
  | [], [] => 0
  | [], _ :: _ => -1
  | _ :: _, [] => 1
  | a :: as, b :: bs =>
    if a = b then strcmp as bs else (a.toNat : Int) - (b.toNat : Int)

/-- The inner loop of `ArraySort` (main.c:323-330): scan the tail for the
minimum under `strcmp < 0` (keeping the earlier element on ties), and
return that minimum together with the remaining elements. -/
def selectMin : String → List String → String × List String
  | x, [] => (x, [])
  | x, y :: ys =>
    if strcmp y.data x.data < 0 then
      ((selectMin y ys).1, x :: (selectMin y ys).2)
    else
      ((selectMin x ys).1, y :: (selectMin x ys).2)

theorem selectMin_snd_length (x : String) (l : List String) :
    (selectMin x l).2.length = l.length := by
  induction l generalizing x with
  | nil => rfl
  | cons y ys ih =>
    simp only [selectMin]
    split <;> simp [ih]

/-- The outer loop of `ArraySort` (main.c:323-337), with its iteration
count (the array size) as an explicit bound: each step places the minimum
of the remaining elements at the current position. -/
def arraySortGo : Nat → List String → List String
  | 0, l => l
  | _ + 1, [] => []
  | n + 1, x :: xs => (selectMin x xs).1 :: arraySortGo n (selectMin x xs).2

/-- `ArraySort` (main.c:320-340): selection sort, ascending under
`strcmp`; the outer loop runs once per element. -/
def ArraySort (l : List String) : List String :=
  arraySortGo l.length l

example : ArraySort ["e", "d", "c", "b", "a"] = ["a", "b", "c", "d", "e"] := by decide

/-- The file-type component of `st_mode` (the `S_IFMT` bits). -/
inductive FType where
  | bdev | cdev | dir | fifo | symlink | file | socket | unknown
deriving DecidableEq

/-- The fields of `struct stat` the program reads: the `S_IFMT` type bits
and the permission bits of `st_mode`, `st_size`, the three timestamps,
and the owner/group ids. -/
structure Stat where
  ftype : FType
  perm : Nat
  size : Nat
  mtime : Int
  atime : Int
  ctime : Int
  uid : Nat
  gid : Nat
deriving DecidableEq

/-- `StatGetModeType` (main.c:455-466): maps the `S_IFMT` bits to the
one-character type tag. -/
def StatGetModeType (st : Stat) : Char :=
  match st.ftype with
  | .bdev => 'b'
  | .cdev => 'c'
  | .dir => 'd'
  | .fifo => 'p'
  | .symlink => 'l'
  | .file => 'f'
  | .socket => 's'
  | .unknown => '?'

/-- The OS primitives the program consumes (§6 of the design): the
file-vs-directory test, the link-aware and follow-symlink stat calls, the
symlink-target read, and the directory scan (each entry paired with the
`d_type == DT_DIR` hint). `none` models a failing call. -/
structure FileSystem where
  isFile : String → Bool
  lstat : String → Option Stat
  stat : String → Option Stat
  readlink : String → Option String
  readDir : String → Option (List (String × Bool))

/-- The metadata-resolution policy of `PathQueryPrintPath`
(main.c:650-694): `lstat` first (failure aborts the entry); if the result
is not a symlink, re-`stat` following links (failure aborts the entry);
if it is a symlink, keep the `lstat` result and build the link
description from `readlink`, substituting `"?"` when the read fails.
Returns the authoritative stat record and the link description. -/
def resolveMeta (fs : FileSystem) (p : String) : Option (Stat × String) :=
  match fs.lstat p with
  | none => none
  | some st =>
    if st.ftype = FType.symlink then
      some (st, " -> " ++ (match fs.readlink p with | none => "?" | some t => t))
    else
      match fs.stat p with
      | none => none
      | some st2 => some (st2, "")

/-- The two presentation modes of the renderer. -/
inductive RenderMode where
  | brief | detail
deriving DecidableEq

/-- The `Arguments` struct (main.c:96-105), restricted to the fields the
traversal consults. -/
structure Arguments where
  paths : PathList
  recursive : Bool

/-- The rendering decision of `PathQueryPrintPath` (main.c:643-729),
instrumented as a trace: when metadata resolution fails the entry is
skipped (no render event); otherwise exactly one event is emitted, in
detail mode precisely when `shouldPrintInDetail` (main.c:706-707) holds:
the path list holds exactly one path and the node's level is 0. -/
def PathQueryPrintPathEv (fs : FileSystem) (args : Arguments) (q : PathQuery) :
    List (PathQuery × RenderMode) :=
  match resolveMeta fs (PathQueryGetPath q) with
  | none => []
  | some _ =>
    if PathListGetSize args.paths = 1 ∧ PathQueryGetLevel (some q) = 0 then
      [(q, RenderMode.detail)]
    else
      [(q, RenderMode.brief)]

/-- `PathQueryPrintDir` (main.c:731-776) as a render trace: scan the
directory (failure renders nothing), skip `.` and `..`, build a child
query per entry, and render it via `PathQueryPrintPath` — except that
with the recursive flag set a subdirectory entry falls into the empty
`TODO` branch (main.c:761-762) and is not rendered. -/
def PathQueryPrintDirEv (fs : FileSystem) (args : Arguments) (dir : PathQuery) :
    List (PathQuery × RenderMode) :=
  match fs.readDir (PathQueryGetPath dir) with
  | none => []
  | some entries =>
    entries.flatMap (fun e =>
      if e.1 = "." ∨ e.1 = ".." then []
      else if args.recursive && e.2 then []
      else PathQueryPrintPathEv fs args (PathQueryCreateChild dir e.1))

/-- `GetInfo` (main.c:778-813) as a render trace: for each index into the
path list, fetch the path (failure skips it), build a root query, and
either render the file itself or list the directory. -/
def GetInfo (fs : FileSystem) (args : Arguments) : List (PathQuery × RenderMode) :=
  (List.range (PathListGetSize args.paths)).flatMap (fun i =>
    match PathListGetPathAtIndex args.paths i with
    | none => []
    | some currpath =>
      if fs.isFile (PathQueryCreate currpath).p then
        PathQueryPrintPathEv fs args (PathQueryCreate currpath)
      else
        PathQueryPrintDirEv fs args (PathQueryCreate currpath))

/-- Witness fixture: a regular-file stat record. -/
def stFileW : Stat := ⟨.file, 420, 5, 1, 2, 3, 1000, 1000⟩

/-- Witness fixture: a symlink's own (link-aware) stat record. -/
def stLinkW : Stat := ⟨.symlink, 511, 4, 10, 11, 12, 1000, 1000⟩

/-- Witness fixture: the stat record of a symlink's target, with fields
all different from the link's own. -/
def stTargetW : Stat := ⟨.file, 420, 100, 20, 21, 22, 0, 0⟩

/-- Witness fixture: a filesystem holding a single regular file. -/
def fsFileW : FileSystem :=
  ⟨fun _ => true, fun _ => some stFileW, fun _ => some stFileW, fun _ => none, fun _ => none⟩

/-- Witness fixture: a filesystem where every path is a symlink whose
target stats successfully with different attributes. -/
def fsLinkW : FileSystem :=
  ⟨fun _ => false, fun _ => some stLinkW, fun _ => some stTargetW, fun _ => some "t",
   fun _ => none⟩

/-- Witness fixture: a filesystem where every path is a symlink whose
target can be neither read nor statted. -/
def fsBrokenLinkW : FileSystem :=
  ⟨fun _ => false, fun _ => some stLinkW, fun _ => none, fun _ => none, fun _ => none⟩

/-- Witness fixture: a one-file argument list, recursion off. -/
def argsOneFileW : Arguments := ⟨⟨["a"], []⟩, false⟩

/-! ## Helper lemmas -/

theorem dropLeadingPeriodSlash_cases (l : List Char) :
    dropLeadingPeriodSlash l = l ∨
    ∃ rest, l = '.' :: '/' :: rest ∧ dropLeadingPeriodSlash l = rest := by
  unfold dropLeadingPeriodSlash
  split
  · next rest => exact Or.inr ⟨rest, rfl, rfl⟩
  · exact Or.inl rfl

theorem dropLeadingPeriodSlash_idem (l : List Char)
    (hne : ∀ r, l ≠ '.' :: '/' :: '.' :: '/' :: r) :
    dropLeadingPeriodSlash (dropLeadingPeriodSlash l) = dropLeadingPeriodSlash l := by
  rcases dropLeadingPeriodSlash_cases l with heq | ⟨rest, rfl, heq⟩
  · rw [heq, heq]
  · rw [heq]
    rcases dropLeadingPeriodSlash_cases rest with heq2 | ⟨r2, rfl, _⟩
    · exact heq2
    · exact absurd rfl (hne r2)

theorem dropSlashesKeepLast_head_ne (r : List Char) (h : ∃ c ∈ r, c ≠ '/') :
    ∃ c rest, dropSlashesKeepLast r = c :: rest ∧ c ≠ '/' := by
  induction r with
  | nil => simp at h
  | cons c rs ih =>
    cases rs with
    | nil =>
      obtain ⟨c2, hc2, hne⟩ := h
      simp only [List.mem_singleton] at hc2
      subst hc2
      exact ⟨c2, [], rfl, hne⟩
    | cons c2 rs2 =>
      by_cases hc : c = '/'
      · subst hc
        simp only [dropSlashesKeepLast, if_pos rfl]
        apply ih
        obtain ⟨c3, hc3, hne⟩ := h
        rcases List.mem_cons.mp hc3 with rfl | h3
        · exact absurd rfl hne
        · exact ⟨c3, h3, hne⟩
      · exact ⟨c, c2 :: rs2, by simp [dropSlashesKeepLast, hc], hc⟩

theorem dropSlashesKeepLast_replicate (k : Nat) :
    dropSlashesKeepLast (List.replicate (k + 1) '/') = ['/'] := by
  induction k with
  | zero => rfl
  | succ k ih =>
    rw [List.replicate_succ]
    rw [List.replicate_succ]
    simp only [dropSlashesKeepLast, if_pos rfl]
    rw [← List.replicate_succ]
    exact ih

theorem charToNat_inj {a b : Char} (h : a.toNat = b.toNat) : a = b :=
  Char.eq_of_val_eq (UInt32.ext h)

theorem strcmp_nil_le (b : List Char) : strcmp [] b ≤ 0 := by
  cases b <;> simp [strcmp]

theorem strcmp_self (a : List Char) : strcmp a a = 0 := by
  induction a with
  | nil => rfl
  | cons x xs ih => simp [strcmp, ih]

theorem strcmp_neg (a : List Char) : ∀ b, strcmp a b = -strcmp b a := by
  induction a with
  | nil => intro b; cases b <;> simp [strcmp]
  | cons x xs ih =>
    intro b
    cases b with
    | nil => simp [strcmp]
    | cons y ys =>
      simp only [strcmp]
      by_cases h : x = y
      · subst h; simp [ih]
      · rw [if_neg h, if_neg (Ne.symm h)]; omega

theorem strcmp_trans (a : List Char) :
    ∀ b c, strcmp a b ≤ 0 → strcmp b c ≤ 0 → strcmp a c ≤ 0 := by
  induction a with
  | nil => intro b c _ _; exact strcmp_nil_le c
  | cons x xs ih =>
    intro b c h1 h2
    cases b with
    | nil => simp [strcmp] at h1
    | cons y ys =>
      cases c with
      | nil => simp [strcmp] at h2
      | cons z zs =>
        simp only [strcmp] at h1 h2 ⊢
        by_cases hxy : x = y
        · subst hxy
          rw [if_pos rfl] at h1
          by_cases hxz : x = z
          · rw [if_pos hxz] at h2
            rw [if_pos hxz]
            exact ih ys zs h1 h2
          · rw [if_neg hxz] at h2
            rw [if_neg hxz]
            exact h2
        · rw [if_neg hxy] at h1
          have hnexy : x.toNat ≠ y.toNat := fun he => hxy (charToNat_inj he)
          by_cases hyz : y = z
          · subst hyz
            rw [if_neg hxy]
            exact h1
          · rw [if_neg hyz] at h2
            have hneyz : y.toNat ≠ z.toNat := fun he => hyz (charToNat_inj he)
            have hxz : x ≠ z := by
              intro he
              subst he
              omega
            rw [if_neg hxz]
            omega

theorem selectMin_perm (x : String) (l : List String) :
    List.Perm ((selectMin x l).1 :: (selectMin x l).2) (x :: l) := by
  induction l generalizing x with
  | nil => exact List.Perm.refl _
  | cons y ys ih =>
    simp only [selectMin]
    split
    · exact (List.Perm.swap x (selectMin y ys).1 (selectMin y ys).2).trans ((ih y).cons x)
    · exact ((List.Perm.swap y (selectMin x ys).1 (selectMin x ys).2).trans
        ((ih x).cons y)).trans (List.Perm.swap x y ys)

theorem selectMin_min (x : String) (l : List String) :
    ∀ z ∈ x :: l, strcmp (selectMin x l).1.data z.data ≤ 0 := by
  induction l generalizing x with
  | nil =>
    intro z hz
    simp only [List.mem_singleton] at hz
    subst hz
    simp [selectMin, strcmp_self]
  | cons y ys ih =>
    intro z hz
    simp only [selectMin]
    split
    · next hlt =>
      rcases List.mem_cons.mp hz with rfl | hz2
      · have h1 : strcmp (selectMin y ys).1.data y.data ≤ 0 :=
          ih y y (List.mem_cons_self y ys)
        exact strcmp_trans _ _ _ h1 (le_of_lt hlt)
      · exact ih y z hz2
    · next hge =>
      rcases List.mem_cons.mp hz with rfl | hz2
      · exact ih z z (List.mem_cons_self z ys)
      · rcases List.mem_cons.mp hz2 with rfl | hz3
        · have h1 : strcmp (selectMin x ys).1.data x.data ≤ 0 :=
            ih x x (List.mem_cons_self x ys)
        
          have h2 : strcmp x.data z.data ≤ 0 := by
            rw [strcmp_neg]
            omega
          exact strcmp_trans _ _ _ h1 h2
        · exact ih x z (List.mem_cons_of_mem x hz3)

theorem arraySortGo_perm : ∀ (n : Nat) (l : List String), l.length = n →
    List.Perm (arraySortGo n l) l := by
  intro n
  induction n with
  | zero => intro l _; exact List.Perm.refl _
  | succ n ih =>
    intro l h
    cases l with
    | nil => exact List.Perm.refl _
    | cons x xs =>
      simp only [arraySortGo]
      have hlen : (selectMin x xs).2.length = n := by
        rw [selectMin_snd_length]
        simpa using h
      exact ((ih _ hlen).cons _).trans (selectMin_perm x xs)

theorem arraySortGo_sorted : ∀ (n : Nat) (l : List String), l.length = n →
    List.Chain' (fun a b => strcmp a.data b.data ≤ 0) (arraySortGo n l) := by
  intro n
  induction n with
  | zero =>
    intro l h
    rw [List.length_eq_zero.mp h]
    exact List.chain'_nil
  | succ n ih =>
    intro l h
    cases l with
    | nil => exact List.chain'_nil
    | cons x xs =>
      simp only [arraySortGo]
      have hlen : (selectMin x xs).2.length = n := by
        rw [selectMin_snd_length]
        simpa using h
      rw [List.chain'_cons']
      refine ⟨?_, ih _ hlen⟩
      intro h2 hh2
      have hmem : h2 ∈ arraySortGo n (selectMin x xs).2 := List.mem_of_mem_head? hh2
      have hmem2 : h2 ∈ (selectMin x xs).2 := (arraySortGo_perm n _ hlen).mem_iff.mp hmem
      have hmem3 : h2 ∈ x :: xs :=
        (selectMin_perm x xs).mem_iff.mp (List.mem_cons_of_mem _ hmem2)
      exact selectMin_min x xs h2 hmem3

theorem selectMin_sorted_eq (x : String) (l : List String)
    (h : ∀ y ∈ l, strcmp x.data y.data ≤ 0) : selectMin x l = (x, l) := by
  induction l with
  | nil => rfl
  | cons y ys ih =>
    have hxy := h y (List.mem_cons_self y ys)
    have hnlt : ¬ strcmp y.data x.data < 0 := by
      rw [strcmp_neg]
      omega
    simp only [selectMin, if_neg hnlt]
    rw [ih (fun z hz => h z (List.mem_cons_of_mem y hz))]

theorem chain'_head_le (x : String) (xs : List String)
    (h : List.Chain' (fun a b => strcmp a.data b.data ≤ 0) (x :: xs)) :
    ∀ y ∈ xs, strcmp x.data y.data ≤ 0 := by
  induction xs generalizing x with
  | nil => intro y hy; simp at hy
  | cons z zs ih =>
    intro y hy
    have hxz : strcmp x.data z.data ≤ 0 := (List.chain'_cons.mp h).1
    rcases List.mem_cons.mp hy with rfl | hy2
    · exact hxz
    · exact strcmp_trans _ _ _ hxz (ih z (List.chain'_cons.mp h).2 y hy2)

theorem arraySortGo_sorted_fix : ∀ (n : Nat) (l : List String), l.length = n →
    List.Chain' (fun a b => strcmp a.data b.data ≤ 0) l → arraySortGo n l = l := by
  intro n
  induction n with
  | zero => intro l _ _; rfl
  | succ n ih =>
    intro l h hch
    cases l with
    | nil => rfl
    | cons x xs =>
      simp only [arraySortGo]
      rw [selectMin_sorted_eq x xs (chain'_head_le x xs hch)]
      rw [ih xs (by simpa using h) (List.chain'_cons'.mp hch).2]

theorem segments_ne_nil (q : PathQuery) : q.segments ≠ [] := by
  cases q with
  | root p => simp [PathQuery.segments]
  | child par p l => simp [PathQuery.segments]

theorem joinSegs_append (xs : List String) (hx : xs ≠ []) (y : String) :
    joinSegs (xs ++ [y]) = joinSegs xs ++ "/" ++ y := by
  induction xs with
  | nil => exact absurd rfl hx
  | cons x xs ih =>
    cases xs with
    | nil => rfl
    | cons x2 xs2 =>
      show joinSegs (x :: x2 :: (xs2 ++ [y])) = _
      rw [joinSegs]
      show x ++ "/" ++ joinSegs (x2 :: xs2 ++ [y]) = _
      rw [ih (by simp)]
      rw [show joinSegs (x :: x2 :: xs2) = x ++ "/" ++ joinSegs (x2 :: xs2) from rfl]
      simp [String.append_assoc]

theorem getPathLoop_eq (q : PathQuery) :
    ∀ acc, getPathLoop q acc = joinSegs q.segments ++ "/" ++ acc := by
  induction q with
  | root p => intro acc; rfl
  | child par p lvl ih =>
    intro acc
    rw [getPathLoop, ih, PathQuery.segments,
      joinSegs_append par.segments (segments_ne_nil par) p]
    simp [String.append_assoc]

/-! ## Claim theorems -/

/-- C10: `PathQueryGetLevel` applied to the NULL node returns 1, the same
value it returns for a genuine depth-1 child of any root, so a caller
cannot tell the error case apart from a valid level-1 result. -/
theorem get_level_null_ambiguous :
    PathQueryGetLevel none = 1 ∧
    ∀ (r : PathQuery) (leaf : String), r.lvl = 0 →
      PathQueryGetLevel (some (PathQueryCreateChild r leaf)) = PathQueryGetLevel none := by
  refine ⟨rfl, ?_⟩
  intro r leaf h
  show (r.lvl + 1) % 256 = 1
  rw [h]

theorem get_level_null_ambiguous_witness :
    (PathQueryCreate "x").lvl = 0 ∧
    PathQueryGetLevel (some (PathQueryCreateChild (PathQueryCreate "x") "y")) =
      PathQueryGetLevel none :=
  ⟨rfl, get_level_null_ambiguous.2 (PathQueryCreate "x") "y" rfl⟩

/-- C9: `ArraySort` produces a permutation of its input; the multiset of
string elements is unchanged by sorting. -/
theorem array_sort_perm (l : List String) : List.Perm (ArraySort l) l :=
  arraySortGo_perm l.length l rfl

/-- C8: for every sequence of distinct strings, `ArraySort` yields a
result in which every adjacent pair is ordered by `strcmp`, and sorting
is idempotent: sorting an already-sorted sequence changes nothing. -/
theorem array_sort_sorted_and_idempotent (l : List String) (_hnd : l.Nodup) :
    List.Chain' (fun a b => strcmp a.data b.data ≤ 0) (ArraySort l) ∧
    ArraySort (ArraySort l) = ArraySort l := by
  have hs := arraySortGo_sorted l.length l rfl
  exact ⟨hs, arraySortGo_sorted_fix (ArraySort l).length (ArraySort l) rfl hs⟩

theorem array_sort_sorted_and_idempotent_witness :
    (["b", "a", "c"] : List String).Nodup ∧
    (List.Chain' (fun a b => strcmp a.data b.data ≤ 0) (ArraySort ["b", "a", "c"]) ∧
      ArraySort (ArraySort ["b", "a", "c"]) = ArraySort ["b", "a", "c"]) :=
  ⟨by decide, array_sort_sorted_and_idempotent ["b", "a", "c"] (by decide)⟩

/-- C7 (counterexample): stripping the leading `./` is not idempotent: on
`"././a"` one application yields `"./a"` but a second yields `"a"`. -/
theorem remove_leading_dot_slash_idem_refuted :
    RemoveLeadingPeriodAndForwardSlashes
        (RemoveLeadingPeriodAndForwardSlashes "././a") ≠
      RemoveLeadingPeriodAndForwardSlashes "././a" := by
  decide

/-- C7 (amended): stripping the leading `./` turns `"./a/b"` into
`"a/b"`, and the operation is idempotent on every text that does not
begin with two copies of `./`. -/
theorem remove_leading_dot_slash_spec :
    RemoveLeadingPeriodAndForwardSlashes "./a/b" = "a/b" ∧
    ∀ s : String, startsWithTwoDotSlash s = false →
      RemoveLeadingPeriodAndForwardSlashes (RemoveLeadingPeriodAndForwardSlashes s) =
        RemoveLeadingPeriodAndForwardSlashes s := by
  refine ⟨by decide, ?_⟩
  intro s h
  have hne : ∀ r, s.data ≠ '.' :: '/' :: '.' :: '/' :: r := by
    intro r hr
    simp [startsWithTwoDotSlash, hr] at h
  exact congrArg String.mk (dropLeadingPeriodSlash_idem s.data hne)

theorem remove_leading_dot_slash_spec_witness :
    startsWithTwoDotSlash "./a/b" = false ∧
    RemoveLeadingPeriodAndForwardSlashes (RemoveLeadingPeriodAndForwardSlashes "./a/b") =
      RemoveLeadingPeriodAndForwardSlashes "./a/b" :=
  ⟨by decide, remove_leading_dot_slash_spec.2 "./a/b" (by decide)⟩

/-- C6 (counterexample): `"//"` is a text other than the single-character
`"/"` that ends in a slash, yet stripping it leaves `"/"`, which still
ends in a slash, so stripping did not remove all trailing slashes. -/
theorem remove_trailing_slashes_refuted :
    ("//" : String) ≠ "/" ∧ endsInSlash "//" = true ∧
    endsInSlash (RemoveTrailingForwardSlashes "//") = true := by
  decide

/-- C6 (amended): for every text ending in a slash that contains at least
one non-slash character, stripping removes all trailing slashes; a text
consisting of the root `"/"` with any number of appended slashes strips
to exactly `"/"`. -/
theorem remove_trailing_slashes_spec :
    (∀ s : String, endsInSlash s = true → (∃ c ∈ s.data, c ≠ '/') →
      endsInSlash (RemoveTrailingForwardSlashes s) = false) ∧
    (∀ k : Nat,
      RemoveTrailingForwardSlashes ("/" ++ String.mk (List.replicate k '/')) = "/") := by
  constructor
  · intro s _ h
    have h2 : ∃ c ∈ s.data.reverse, c ≠ '/' := by
      obtain ⟨c, hc, hne⟩ := h
      exact ⟨c, List.mem_reverse.mpr hc, hne⟩
    obtain ⟨c, rest, heq, hcne⟩ := dropSlashesKeepLast_head_ne s.data.reverse h2
    unfold RemoveTrailingForwardSlashes endsInSlash
    rw [heq]
    simpa [List.getLast?_reverse] using hcne
  · intro k
    have hdata : ("/" ++ String.mk (List.replicate k '/')).data =
        List.replicate (k + 1) '/' := by
      rw [String.data_append]
      simp [List.replicate_succ]
    unfold RemoveTrailingForwardSlashes
    rw [hdata, List.reverse_replicate, dropSlashesKeepLast_replicate]
    rfl

theorem remove_trailing_slashes_spec_witness :
    endsInSlash "a//" = true ∧ (∃ c ∈ ("a//" : String).data, c ≠ '/') ∧
    endsInSlash (RemoveTrailingForwardSlashes "a//") = false :=
  ⟨by decide, by decide,
   remove_trailing_slashes_spec.1 "a//" (by decide) (by decide)⟩

/-- C5: full-path reconstruction equals the root-to-leaf join of the
node's segments with `/` separators followed by trailing-slash
stripping; in particular a root `"x"` with child `"y"` and grandchild
`"z"` reconstructs to exactly `"x/y/z"`. -/
theorem full_path_reconstruction :
    (∀ q : PathQuery,
      PathQueryGetPath q = RemoveTrailingForwardSlashes (joinSegs q.segments ++ "/")) ∧
    PathQueryGetPath
      (PathQueryCreateChild (PathQueryCreateChild (PathQueryCreate "x") "y") "z") =
      "x/y/z" := by
  constructor
  · intro q
    unfold PathQueryGetPath
    rw [getPathLoop_eq q "", String.append_empty]
  · decide

/-- C4: the collection size is the file count plus the directory count;
`at(i)` returns the i-th file element for `i` below the file count, the
directory element shifted by the file count for `i` between the file
count and the total size, and fails at `i = size`. -/
theorem pathlist_size_at_spec (paths : PathList) :
    PathListGetSize paths = paths.arrayfile.length + paths.arraydir.length ∧
    (∀ i, i < paths.arrayfile.length →
      PathListGetPathAtIndex paths i = some (paths.arrayfile.getD i "")) ∧
    (∀ i, paths.arrayfile.length ≤ i → i < PathListGetSize paths →
      PathListGetPathAtIndex paths i =
        some (paths.arraydir.getD (i - paths.arrayfile.length) "")) ∧
    PathListGetPathAtIndex paths (PathListGetSize paths) = none := by
  refine ⟨rfl, ?_, ?_, ?_⟩
  · intro i hi
    unfold PathListGetPathAtIndex
    rw [if_neg (by unfold PathListGetSize; omega), if_pos hi]
  · intro i h1 h2
    unfold PathListGetPathAtIndex
    rw [if_neg (by omega), if_neg (by omega)]
  · unfold PathListGetPathAtIndex
    rw [if_pos (le_refl _)]

theorem pathlist_size_at_spec_witness :
    PathListGetPathAtIndex ⟨["f"], ["d"]⟩ 0 = some "f" ∧
    PathListGetPathAtIndex ⟨["f"], ["d"]⟩ 1 = some "d" ∧
    PathListGetPathAtIndex ⟨["f"], ["d"]⟩ 2 = none :=
  ⟨(pathlist_size_at_spec ⟨["f"], ["d"]⟩).2.1 0 (by decide),
   (pathlist_size_at_spec ⟨["f"], ["d"]⟩).2.2.1 1 (by decide) (by decide),
   (pathlist_size_at_spec ⟨["f"], ["d"]⟩).2.2.2⟩

/-- C2 (counterexample): at a concrete symlink whose target would stat
successfully with different attributes, the resolved record keeps the
link's own permission bits, size, and timestamps — the follow-symlink
result is never consulted, refuting the claim that a successful follow
fetch overwrites those fields. -/
theorem symlink_follow_overwrite_refuted :
    fsLinkW.lstat "a" = some stLinkW ∧ stLinkW.ftype = FType.symlink ∧
    fsLinkW.stat "a" = some stTargetW ∧
    resolveMeta fsLinkW "a" = some (stLinkW, " -> t") ∧
    stLinkW.perm ≠ stTargetW.perm ∧ stLinkW.size ≠ stTargetW.size ∧
    stLinkW.mtime ≠ stTargetW.mtime ∧ stLinkW.atime ≠ stTargetW.atime ∧
    stLinkW.ctime ≠ stTargetW.ctime := by
  decide

/-- C2 (amended): for every path whose link-aware metadata indicates a
symlink, no follow-symlink fetch is consulted: the record's permission
bits, size, and all three timestamps are the link-aware (symlink's own)
metadata, the type tag is symlink (`'l'`), and only the link-target text
is resolved (best-effort). -/
theorem symlink_keeps_linkaware_metadata (fs : FileSystem) (p : String) (st : Stat)
    (hl : fs.lstat p = some st) (hsym : st.ftype = FType.symlink) :
    resolveMeta fs p =
      some (st, " -> " ++ (match fs.readlink p with | none => "?" | some t => t)) ∧
    StatGetModeType st = 'l' := by
  constructor
  · simp [resolveMeta, hl, hsym]
  · simp [StatGetModeType, hsym]

theorem symlink_keeps_linkaware_metadata_witness :
    fsLinkW.lstat "a" = some stLinkW ∧ stLinkW.ftype = FType.symlink ∧
    (resolveMeta fsLinkW "a" =
        some (stLinkW, " -> " ++ (match fsLinkW.readlink "a" with | none => "?" | some t => t)) ∧
      StatGetModeType stLinkW = 'l') :=
  ⟨rfl, rfl, symlink_keeps_linkaware_metadata fsLinkW "a" stLinkW rfl rfl⟩

/-- C3: for every symlink whose target text cannot be read, metadata
resolution still succeeds: the record keeps the symlink's own link-aware
metadata and the reported link-target text is `"?"`. -/
theorem broken_symlink_target_fallback (fs : FileSystem) (p : String) (st : Stat)
    (hl : fs.lstat p = some st) (hsym : st.ftype = FType.symlink)
    (hrl : fs.readlink p = none) :
    resolveMeta fs p = some (st, " -> ?") := by
  simp only [resolveMeta, hl, hsym, if_pos rfl, hrl]
  rfl

theorem broken_symlink_target_fallback_witness :
    fsBrokenLinkW.lstat "a" = some stLinkW ∧ stLinkW.ftype = FType.symlink ∧
    fsBrokenLinkW.readlink "a" = none ∧
    resolveMeta fsBrokenLinkW "a" = some (stLinkW, " -> ?") :=
  ⟨rfl, rfl, rfl, broken_symlink_target_fallback fsBrokenLinkW "a" stLinkW rfl rfl rfl⟩

theorem mem_printPathEv {fs : FileSystem} {args : Arguments} {q q2 : PathQuery}
    {m : RenderMode} (h : (q2, m) ∈ PathQueryPrintPathEv fs args q) :
    q2 = q ∧ (m = RenderMode.detail ↔
      (PathListGetSize args.paths = 1 ∧ PathQueryGetLevel (some q) = 0)) := by
  unfold PathQueryPrintPathEv at h
  split at h
  · simp at h
  · split at h
    · next hcond =>
      rw [List.mem_singleton] at h
      rw [Prod.mk.injEq] at h
      obtain ⟨rfl, rfl⟩ := h
      exact ⟨rfl, iff_of_true rfl hcond⟩
    · next hcond =>
      rw [List.mem_singleton] at h
      rw [Prod.mk.injEq] at h
      obtain ⟨rfl, rfl⟩ := h
      exact ⟨rfl, iff_of_false (by decide) hcond⟩

/-- C1: a render event of the full traversal is in detail mode exactly
when the whole query has a single root path, the root that produced the
event is a file, and the rendered node is at level 0; every other event
(multiple roots, directory children) is in brief mode. -/
theorem detail_mode_iff (fs : FileSystem) (args : Arguments) (q : PathQuery)
    (m : RenderMode) (h : (q, m) ∈ GetInfo fs args) :
    m = RenderMode.detail ↔
      (PathListGetSize args.paths = 1 ∧ fs.isFile (PathQuery.rootOf q).p = true ∧
        PathQueryGetLevel (some q) = 0) := by
  unfold GetInfo at h
  rw [List.mem_flatMap] at h
  obtain ⟨i, _, h⟩ := h
  split at h
  · simp at h
  · next currpath _ =>
    split at h
    · next hfile =>
      obtain ⟨rfl, hiff⟩ := mem_printPathEv h
      rw [hiff]
      unfold PathQueryCreate at hfile ⊢
      simp only [PathQuery.rootOf, PathQuery.p, PathQueryGetLevel, PathQuery.lvl]
      simp only [PathQuery.p] at hfile
      rw [hfile]
      simp
    · next hfile =>
      unfold PathQueryPrintDirEv at h
      split at h
      · simp at h
      · rw [List.mem_flatMap] at h
        obtain ⟨e, _, h⟩ := h
        split at h
        · simp at h
        · split at h
          · simp at h
          · obtain ⟨rfl, hiff⟩ := mem_printPathEv h
            rw [hiff]
            simp only [PathQueryCreateChild, PathQueryCreate, PathQuery.rootOf,
              PathQuery.p, PathQueryGetLevel, PathQuery.lvl]
            simp

theorem detail_mode_iff_witness :
    (PathQueryCreate "a", RenderMode.detail) ∈ GetInfo fsFileW argsOneFileW ∧
    (RenderMode.detail = RenderMode.detail ↔
      (PathListGetSize argsOneFileW.paths = 1 ∧
        fsFileW.isFile (PathQuery.rootOf (PathQueryCreate "a")).p = true ∧
        PathQueryGetLevel (some (PathQueryCreate "a")) = 0)) :=
  ⟨by decide,
   detail_mode_iff fsFileW argsOneFileW (PathQueryCreate "a") RenderMode.detail (by decide)⟩
